import Mathlib

/-!
Shallow embedding of the nasmfmt v2 core (packages `nasm` and `nasmfmt`).

Go strings are modelled as `List Char` (`Str`); every byte-offset slice in
the source acts on rune boundaries for the inputs considered here, so char
lists are faithful.  Go's `text/tabwriter` (stdlib) is modelled with the
exact parameters used by `valign`: `NewWriter(w, 1, 0, 1, ' ', 0)`.
Character classes (`unicode.IsSpace`, regexp `\s`, `\w`) are modelled on
their ASCII/Latin-1 fragments, which cover all inputs exercised here.
-/

namespace Nasm

/-- Go strings, modelled as lists of runes. -/
abbrev Str := List Char

/-- `unicode.IsSpace` restricted to Latin-1 (the fragment relevant here):
tab, newline, vertical tab, form feed, carriage return, space, NEL, NBSP. -/
def isGoSpace (c : Char) : Bool :=
  c = ' ' || c = '\t' || c = '\n' || c = Char.ofNat 11 || c = Char.ofNat 12 ||
  c = '\r' || c = Char.ofNat 133 || c = Char.ofNat 160

/-- Go regexp character class `\s`, i.e. `[\t\n\f\r ]`. -/
def isReSpace (c : Char) : Bool :=
  c = ' ' || c = '\t' || c = '\n' || c = Char.ofNat 12 || c = '\r'

/-- Go regexp character class `\w`, i.e. `[0-9A-Za-z_]`. -/
def isWordChar (c : Char) : Bool :=
  (('a' ≤ c && c ≤ 'z') || ('A' ≤ c && c ≤ 'Z') || ('0' ≤ c && c ≤ '9') || c = '_')

/-- The single-quote character (`'`). -/
def squote : Char := Char.ofNat 39

/-- The double-quote character (`"`). -/
def dquote : Char := Char.ofNat 34

/-- ASCII lower-casing, for the case-insensitive `(?i)` keyword matches. -/
def asciiLower (c : Char) : Char :=
  if 'A' ≤ c && c ≤ 'Z' then Char.ofNat (c.toNat + 32) else c

/-- `strings.Repeat(" ", n)`. -/
def spaces (n : Nat) : Str := List.replicate n ' '

/-- `strings.TrimLeftFunc(s, unicode.IsSpace)`. -/
def trimLeftSpace (s : Str) : Str := s.dropWhile isGoSpace

/-- `strings.TrimSpace`. -/
def trimSpace (s : Str) : Str :=
  ((s.dropWhile isGoSpace).reverse.dropWhile isGoSpace).reverse

/-- `strings.Split(s, sep)` for a one-character separator: the result is
always nonempty, and empty pieces are kept. -/
def splitOnChar (c : Char) : Str → List Str
  | [] => [[]]
  | x :: xs =>
    if x = c then [] :: splitOnChar c xs
    else
      match splitOnChar c xs with
      | [] => [[x]]
      | y :: ys => (x :: y) :: ys

/-- `strings.Join(pieces, sep)`. -/
def joinSep (sep : Str) : List Str → Str
  | [] => []
  | [x] => x
  | x :: xs => x ++ sep ++ joinSep sep xs

/-- `strings.Index(s, t)` for a one-character `t`: index of first occurrence. -/
def charIndex (c : Char) : Str → Option Nat
  | [] => none
  | x :: xs =>
    if x = c then some 0
    else (charIndex c xs).map (· + 1)

/-- `strings.Contains(s, t)` for a one-character `t`. -/
def containsChar (c : Char) (s : Str) : Bool := s.contains c

/-- Modelled from the spec: the Quote Mask (`NoQuotes(line, "x")`), whose
implementation file is not among the provided sources.  Per spec §4.1 it is
a length-preserving transform replacing every character inside a single- or
double-quote delimited literal (non-nesting, no escape handling, an
unterminated literal extends to end of line) by the placeholder `x`;
the delimiters themselves and all characters outside quotes pass through. -/
def NoQuotes : Str → Str
  | [] => []
  | c :: rest =>
    if c = squote || c = dquote then c :: noQuotesIn c rest
    else c :: NoQuotes rest
where
  /-- masking state inside a literal delimited by `q`. -/
  noQuotesIn (q : Char) : Str → Str
    | [] => []
    | c :: rest =>
      if c = q then c :: NoQuotes rest
      else 'x' :: noQuotesIn q rest

/-- The closed token variant set of package `nasm` (one Go struct per
variant: `CommentToken`, `SectionToken`, `DirectiveToken`, `PseudoToken`,
`LabelToken`, `InstructionToken`). -/
inductive Token where
  | commentTok (text : Str)
  | sectionTok (keyword name : Str)
  | directiveTok (keyword text : Str)
  | pseudoTok (label instr text : Str)
  | labelTok (label : Str)
  | instructionTok (instr : Str) (args : List Str)
deriving DecidableEq, Repr

/-- `Token.String()`: the verbatim re-rendering of each variant. -/
def Token.render : Token → Str
  | .commentTok text => [';', ' '] ++ text
  | .sectionTok keyword name => keyword ++ [' '] ++ name
  | .directiveTok keyword text => keyword ++ [' '] ++ text
  | .pseudoTok label instr text => label ++ ['\t'] ++ instr ++ ['\t'] ++ text
  | .labelTok label => label ++ [':']
  | .instructionTok instr args =>
    instr ++ (if args.isEmpty then [] else ['\t'] ++ joinSep [',', ' '] args)

def Token.isInstruction : Token → Bool
  | .instructionTok _ _ => true
  | _ => false

def Token.isSection : Token → Bool
  | .sectionTok _ _ => true
  | _ => false

def Token.isComment : Token → Bool
  | .commentTok _ => true
  | _ => false

/-- Case-insensitive literal match of `kw` against `s` starting at offset
`i` (ASCII folding, as used by the `(?i)` keyword regexps). -/
def ciMatchAt (s : Str) (i : Nat) (kw : Str) : Bool :=
  (List.range kw.length).all fun j =>
    match (s.drop (i + j)).head?, kw.get? j with
    | some c, some k => asciiLower c = asciiLower k
    | _, _ => false

/-- Position after the run of regexp-`\s` characters starting at `i`. -/
def skipReSpace (s : Str) (i : Nat) : Nat :=
  i + ((s.drop i).takeWhile isReSpace).length

/-- Matcher for `sectionRe` / `directiveRe`, i.e. the anchored pattern
`^(?i)\s*(kw1|kw2|...)\s+([^;\s]*)\s*$` applied to the masked line.  On a
match it returns the keyword span and the argument span (half-open index
intervals into the line). -/
def wholeLineKwFind (kws : List Str) (noq : Str) : Option (Nat × Nat × Nat × Nat) :=
  let i := skipReSpace noq 0
  let n := noq.length
  (kws.find? fun kw =>
      ciMatchAt noq i kw &&
      match (noq.drop (i + kw.length)).head? with
      | some c => isReSpace c
      | none => false).bind fun kw =>
    let j := i + kw.length
    let p := skipReSpace noq j
    let q := p + ((noq.drop p).takeWhile (fun c => !isReSpace c && c ≠ ';')).length
    let r := skipReSpace noq q
    if r = n then some (i, j, p, q) else none

/-- `sectionRe = ^(?i)\s*(section|segment)\s+([^;\s]*)\s*$`. -/
def sectionKeywords : List Str := [toList "section", toList "segment"]
  where toList (s : String) : Str := s.data

/-- The closed directive keyword set of `directiveRe`. -/
def directiveKeywords : List Str :=
  ["default", "absolute", "extern", "global", "common", "cpu", "float"].map
    String.data

/-- The closed pseudo-instruction keyword set of `pseudoRe` (current
`nasm` package version). -/
def pseudoKeywords : List Str :=
  ["db", "dw", "dd", "dq", "dt", "ddq", "do",
   "resb", "resw", "resd", "resq", "rest", "resdq", "reso", "resy", "resz",
   "incbin", "equ", "times"].map String.data

/-- The pseudo keyword set of the earlier `nasm` package version
(`resddq` instead of `resdq`/`resy`/`resz`). -/
def pseudoKeywordsV1 : List Str :=
  ["db", "dw", "dd", "dq", "dt", "ddq", "do",
   "resb", "resw", "resd", "resq", "rest", "resddq", "reso",
   "incbin", "equ", "times"].map String.data

/-- One alternation step of `pseudoRe`'s `(kw1|...|kwN)(?:\s|")`: the first
keyword (in list order) that literal-matches at `pos` and is followed by a
`\s` character or a double quote.  Returns the keyword span. -/
def pseudoKwAt (kws : List Str) (noq : Str) (pos : Nat) : Option (Nat × Nat) :=
  (kws.find? fun kw =>
      ciMatchAt noq pos kw &&
      match (noq.drop (pos + kw.length)).head? with
      | some c => isReSpace c || c = dquote
      | none => false).map fun kw => (pos, pos + kw.length)

/-- The backtracking alternatives of `pseudoRe` after the lazy group has
consumed `k` characters: `:?` prefers consuming a colon, `(?:\s|^)` tries
the space branch before the begin-of-text assertion. -/
def pseudoTryAt (kws : List Str) (noq : Str) (k : Nat) : Option (Nat × Nat) :=
  let tryFrom (p : Nat) : Option (Nat × Nat) :=
    let viaSpace :=
      match (noq.drop p).head? with
      | some c => if isReSpace c then pseudoKwAt kws noq (p + 1) else none
      | none => none
    viaSpace.orElse fun _ => if p = 0 then pseudoKwAt kws noq p else none
  if (noq.drop k).head? = some ':' then
    (tryFrom (k + 1)).orElse fun _ => tryFrom k
  else tryFrom k

/-- Matcher for `pseudoRe = (?i)(.*?):?(?:\s|^)(kw...)(?:\s|")` under Go's
leftmost, lazy-first backtracking: the lazy prefix length `k` grows from 0;
`.` does not cross a newline.  Returns `(k, kwStart, kwEnd)`. -/
def pseudoFindGo (kws : List Str) (noq : Str) (k : Nat) : Str → Option (Nat × Nat × Nat)
  | [] =>
    (pseudoTryAt kws noq k).map fun (a, b) => (k, a, b)
  | c :: rest =>
    match pseudoTryAt kws noq k with
    | some (a, b) => some (k, a, b)
    | none => if c = '\n' then none else pseudoFindGo kws noq (k + 1) rest

def pseudoFind (kws : List Str) (noq : Str) : Option (Nat × Nat × Nat) :=
  pseudoFindGo kws noq 0 noq

/-- `instrRe = \s*(\w+)`: span of the first word-character run. -/
def instrFind (noq : Str) : Option (Nat × Nat) :=
  let i := (noq.takeWhile (fun c => !isWordChar c)).length
  let run := (noq.drop i).takeWhile isWordChar
  if run.isEmpty then none else some (i, i + run.length)

/-- A token parser consumes (part of) a line and returns an optional token
plus the remaining line (`type TokenParser func(line string) (Token, string)`). -/
abbrev TokenParser := Str → Option Token × Str

/-- `ParseCommentToken`: split at the first unmasked `;`; the body keeps a
lone-space body verbatim, otherwise one leading space is stripped. -/
def ParseCommentToken : TokenParser := fun line =>
  let noq := NoQuotes line
  match charIndex ';' noq with
  | none => (none, line)
  | some idx =>
    let cmt := line.drop (idx + 1)
    let cmt :=
      if cmt = [' '] then cmt
      else match cmt with
           | ' ' :: rest => rest
           | _ => cmt
    (some (.commentTok cmt), line.take idx)

/-- `ParseSectionToken`: whole-line match of `sectionRe` on the masked
line, token fields sliced from the raw line. -/
def ParseSectionToken : TokenParser := fun line =>
  let noq := NoQuotes line
  match wholeLineKwFind sectionKeywords noq with
  | none => (none, line)
  | some (i, j, p, q) =>
    (some (.sectionTok ((line.take j).drop i) ((line.take q).drop p)), [])

/-- `ParseDirectiveToken`: whole-line match of `directiveRe` on the masked
line. -/
def ParseDirectiveToken : TokenParser := fun line =>
  let noq := NoQuotes line
  match wholeLineKwFind directiveKeywords noq with
  | none => (none, line)
  | some (i, j, p, q) =>
    (some (.directiveTok ((line.take j).drop i) ((line.take q).drop p)), [])

/-- `ParsePseudoToken` with an explicit keyword set (the two package
versions differ only in the set). -/
def ParsePseudoTokenWith (kws : List Str) : TokenParser := fun line =>
  let noq := NoQuotes line
  match pseudoFind kws noq with
  | none => (none, line)
  | some (k, a, b) =>
    (some (.pseudoTok (trimSpace (line.take k)) ((line.take b).drop a)
                      (trimSpace (line.drop b))), [])

/-- `ParsePseudoToken` (current keyword set). -/
def ParsePseudoToken : TokenParser := ParsePseudoTokenWith pseudoKeywords

/-- `ParseLabelToken`: split at the first unmasked `:`, declining when the
raw text after the colon contains both `[` and `]`. -/
def ParseLabelToken : TokenParser := fun line =>
  let noq := NoQuotes line
  match charIndex ':' noq with
  | none => (none, line)
  | some idx =>
    let label := trimSpace (line.take idx)
    let rest := line.drop (idx + 1)
    if containsChar '[' rest && containsChar ']' rest then (none, line)
    else (some (.labelTok label), rest)

/-- `ParseInstructionToken`: trim leading space, take the first
word-character run of the masked line as the mnemonic, split the remainder
of the raw line on commas and trim each piece.  Declines (returning the
trimmed line) when no word character remains. -/
def ParseInstructionToken : TokenParser := fun line =>
  let line := trimLeftSpace line
  let noq := NoQuotes line
  match instrFind noq with
  | none => (none, line)
  | some (i, j) =>
    let instr := (line.take j).drop i
    let rest := line.drop j
    let args := (splitOnChar ',' rest).map trimSpace
    (some (.instructionTok instr args), [])

/-- The ordered recognizer chain of the current `nasm` package. -/
def TokenParsers : List TokenParser :=
  [ParseCommentToken, ParseSectionToken, ParseDirectiveToken,
   ParsePseudoToken, ParseLabelToken, ParseInstructionToken]

/-- The ordered recognizer chain of the earlier `nasm` package version
(see `ParseLines`); it differs only in the pseudo keyword set. -/
def TokenParsersV1 : List TokenParser :=
  [ParseCommentToken, ParseSectionToken, ParseDirectiveToken,
   ParsePseudoTokenWith pseudoKeywordsV1, ParseLabelToken, ParseInstructionToken]

/-- The parser loop shared by both `ParseLine` versions: apply the chain in
order, collect produced tokens, stop early once the line is empty; return
the collected tokens and the residual line. -/
def runChain : List TokenParser → Str → List Token × Str
  | [], line => ([], line)
  | p :: ps, line =>
    let (tok, line') := p line
    let toks := match tok with
      | some t => [t]
      | none => []
    if line' = [] then (toks, [])
    else
      let (more, residual) := runChain ps line'
      (toks ++ more, residual)

/-- `PopToken[CommentToken]`: remove the first comment token from the list,
returning its body (the zero `CommentToken` - empty body - when absent). -/
def popCommentToken : List Token → Str × List Token
  | [] => ([], [])
  | Token.commentTok text :: rest => (text, rest)
  | t :: rest =>
    let (c, ts) := popCommentToken rest
    (c, t :: ts)

/-- The current `nasm` package `Line`: at most one structural token plus an
optional comment; `comment = []` is the zero `CommentToken`. -/
structure Line where
  token : Option Token
  comment : Str
deriving DecidableEq, Repr

/-- `Line.IsEmpty()`: no structural token and zero-value comment. -/
def Line.IsEmpty (l : Line) : Bool := l.token.isNone && l.comment.isEmpty

/-- The earlier package version's `Line` (`Tokens []Token` plus comment). -/
structure LineV1 where
  tokens : List Token
  comment : Str
deriving DecidableEq, Repr

/-- `LineV1.IsEmpty()`. -/
def LineV1.IsEmpty (l : LineV1) : Bool := l.tokens.isEmpty && l.comment.isEmpty

/-- The earlier version's `ParseLine`: run the chain, fail with the
residual text if any remains, then pop the comment token. -/
def ParseLineV1 (line : Str) : Except Str LineV1 :=
  let (tokens, residual) := runChain TokenParsersV1 line
  if residual = [] then
    let (comment, tokens) := popCommentToken tokens
    .ok { tokens := tokens, comment := comment }
  else .error residual

/-- The earlier version's `ParseLines`, faithful to its Go signature: it
returns the lines parsed so far TOGETHER with an optional fault; the fault
wraps the 0-based `lineIdx` of the failing line and that line's residual
text (`"error at line %d: excess text %q"`). -/
def ParseLinesV1 (input : List Str) : List LineV1 × Option (Nat × Str) :=
  go 0 input
where
  go (lineIdx : Nat) : List Str → List LineV1 × Option (Nat × Str)
    | [] => ([], none)
    | l :: rest =>
      match ParseLineV1 l with
      | .error residual => ([], some (lineIdx, residual))
      | .ok line =>
        let (ls, err) := go (lineIdx + 1) rest
        (line :: ls, err)

/-- Modelled from the spec: the current package's per-line parse
(`nasm.Parse` and the `Parser` type are not among the provided sources).
Per spec §3/§4.2-4.3 every source line is recognized independently by the
same six-rule chain, yields at most one structural token plus an optional
comment, and faults on residual text.  The chain is the one from the
sources; when it produces a structural token the line carries it. -/
def parseLine (line : Str) : Except Str Line :=
  let (tokens, residual) := runChain TokenParsers line
  if residual = [] then
    let (comment, tokens) := popCommentToken tokens
    .ok { token := tokens.head?, comment := comment }
  else .error residual

/-- Modelled from the spec: `bufio.Scanner` line splitting used by
`nasm.Parse` (spec §4.3, "splits input text into physical lines by line
terminator"): split on newline, drop the empty piece after a final
newline, strip one trailing carriage return per line. -/
def splitLines (s : Str) : List Str :=
  let parts := splitOnChar '\n' s
  let parts := if parts.getLast? = some [] then parts.dropLast else parts
  parts.map fun l => if l.getLast? = some '\r' then l.dropLast else l

/-- Modelled from the spec: `nasm.Parse` composed of line splitting and the
per-line recognizer (index-stable, whole-input failure). -/
def Parse (s : Str) : Except Str (List Line) :=
  go (splitLines s)
where
  go : List Str → Except Str (List Line)
    | [] => .ok []
    | l :: rest =>
      match parseLine l with
      | .error e => .error e
      | .ok line => (go rest).map fun ls => line :: ls

/-- `FormatConfig` (`InstructionIndent`, `CommentIndent`).  The comment
column is kept as an integer because the formatter subtracts from it;
the instruction indent is only ever used as a repeat count. -/
structure FormatConfig where
  instructionIndent : Nat
  commentIndent : Int
deriving DecidableEq, Repr

/-- The default configuration (`-ii 8 -ci 40`). -/
def defaultConfig : FormatConfig := { instructionIndent := 8, commentIndent := 40 }

/-- The block segmentation loop inside `Format`: a blank line closes the
current block; a Section line becomes a block of its own; anything else is
appended to the current block.  `cur = []` models the Go `nil` current
block; the final (possibly empty) current block is kept, as in Go. -/
def segGo : List Line → List (List Line) → List Line → List (List Line)
  | [], done, cur => done ++ [cur]
  | l :: rest, done, cur =>
    if l.IsEmpty then
      segGo rest (if cur.isEmpty then done else done ++ [cur]) []
    else if (l.token.map Token.isSection).getD false then
      segGo rest ((if cur.isEmpty then done else done ++ [cur]) ++ [[l]]) []
    else
      segGo rest done (cur ++ [l])

/-- The block list built by `Format` from the parsed lines. -/
def segment (ls : List Line) : List (List Line) := segGo ls [] []

/-- Maximum of a list of naturals (0 for the empty list). -/
def maxList (ns : List Nat) : Nat := ns.foldr Nat.max 0

/-- Pad a cell on the right with spaces to width `w` (tabwriter left
alignment with padchar `' '`). -/
def padRight (w : Nat) (c : Str) : Str := c ++ spaces (w - c.length)

/-- Fuel measure for the tabwriter recursion: total cell count plus row
count. -/
def msize (rows : List (List Str)) : Nat := (rows.map fun r => r.length + 1).sum

/-- Core of Go's `text/tabwriter` with the parameters of `valign`
(`minwidth 1, tabwidth 0, padding 1, padchar ' ', flags 0`): rows are cell
lists (split on tabs; the final cell of each row is not tab-terminated).
Rows whose current first cell is the final one are emitted verbatim and
break column runs; a maximal run of rows with a tab-terminated first cell
is padded to one more than the widest such cell, and the remaining cells
are aligned recursively within the run.  Structural recursion on fuel. -/
def padGo : Nat → List (List Str) → List Str
  | 0, _ => []
  | _ + 1, [] => []
  | fuel + 1, row :: rest =>
    if row.length ≤ 1 then
      row.headD [] :: padGo fuel rest
    else
      let all := row :: rest
      let run := all.takeWhile fun r => decide (1 < r.length)
      let rest' := all.dropWhile fun r => decide (1 < r.length)
      let w := 1 + maxList (run.map fun r => (r.headD []).length)
      List.zipWith (fun c t => padRight w c ++ t)
        (run.map fun r => r.headD []) (padGo fuel (run.map fun r => r.tail))
      ++ padGo fuel rest'

/-- Tabwriter alignment of a row list with sufficient fuel. -/
def padCells (rows : List (List Str)) : List Str := padGo (msize rows + 1) rows

/-- `valign`: feed every line plus a newline through the tabwriter and
flush. -/
def valign (lines : List Str) : Str :=
  ((padCells (lines.map (splitOnChar '\t'))).map fun l => l ++ ['\n']).flatten

/-- `writeLinesNoComment`: render each line's structural token (with the
instruction indent for instruction tokens), leaving empty strings for
lines without a token. -/
def writeLinesNoComment (block : List Line) (cfg : FormatConfig) : List Str :=
  block.map fun l =>
    match l.token with
    | none => []
    | some t =>
      (if t.isInstruction then spaces cfg.instructionIndent else []) ++ t.render

/-- The space count inserted before an instruction line's comment:
`max(CommentIndent - (len(s)+1), 1)`. -/
def commentPad (cfg : FormatConfig) (s : Str) : Nat :=
  (max (cfg.commentIndent - (s.length + 1)) 1).toNat

/-- The comment-overlay loop of `writeBlock`: walk the aligned lines in
step with the block's lines (stopping at the block length, which leaves
the tabwriter's trailing empty line untouched); `prev` is the previously
processed (already comment-bearing) output line. -/
def overlayGo (cfg : FormatConfig) (block : List Line) :
    Nat → Str → List Str → List Str
  | _, _, [] => []
  | i, prev, s :: rest =>
    match block.get? i with
    | none => s :: rest
    | some line =>
      if line.comment = [] then s :: overlayGo cfg block (i + 1) s rest
      else
        let s' :=
          match line.token with
          | some t =>
            if t.isInstruction then s ++ spaces (commentPad cfg s)
            else s ++ ['\t']
          | none =>
            if 0 < i && !prev.isEmpty then
              match charIndex ';' (NoQuotes prev) with
              | some ix => s ++ spaces ix
              | none => s
            else s
        let s'' := s' ++ [';', ' '] ++ line.comment
        s'' :: overlayGo cfg block (i + 1) s'' rest

/-- `writeBlock`: tab-align the comment-free renderings, overlay the
comments, then re-align. -/
def writeBlock (cfg : FormatConfig) (block : List Line) : Str :=
  let lines := writeLinesNoComment block cfg
  let lines := splitOnChar '\n' (valign lines)
  let lines := overlayGo cfg block 0 [] lines
  valign lines

/-- The body of `Format` after parsing: segment into blocks and write each
block in order. -/
def FormatLines (cfg : FormatConfig) (ls : List Line) : Str :=
  ((segment ls).map (writeBlock cfg)).flatten

/-- `Format` over char lists: parse (spec-modelled `nasm.Parse`), then
segment and write; a parse fault aborts with no output. -/
def FormatStr (cfg : FormatConfig) (src : Str) : Option Str :=
  match Parse src with
  | .error _ => none
  | .ok ls => some (FormatLines cfg ls)

/-- `Format` on Lean strings. -/
def Format (cfg : FormatConfig) (src : String) : Option String :=
  (FormatStr cfg src.data).map fun l => String.mk l

instance {ε α : Type} [DecidableEq ε] [DecidableEq α] : DecidableEq (Except ε α) := fun a b =>
  match a, b with
  | .ok x, .ok y => decidable_of_iff (x = y) (by simp)
  | .error x, .error y => decidable_of_iff (x = y) (by simp)
  | .ok _, .error _ => isFalse (by simp)
  | .error _, .ok _ => isFalse (by simp)

/-- The ordered (mnemonic, operand-list) sequence of a parsed line list:
the payload the semantic round-trip property compares. -/
def instructionPairs (ls : List Line) : List (Str × List Str) :=
  ls.filterMap fun l =>
    match l.token with
    | some (.instructionTok instr args) => some (instr, args)
    | _ => none

/-- A line is a Section/Segment line when its structural token is a
`SectionToken` (the test `line.Token.(nasm.SectionToken)` in `Format`). -/
def Line.isSection (l : Line) : Bool := (l.token.map Token.isSection).getD false

/-! ## Basic lemmas about the string primitives -/

theorem splitOnChar_ne_nil (c : Char) (s : Str) : splitOnChar c s ≠ [] := by
  induction s with
  | nil => simp [splitOnChar]
  | cons x xs ih =>
    simp only [splitOnChar]
    split
    · simp
    · cases h : splitOnChar c xs with
      | nil => simp
      | cons y ys => simp

theorem splitOnChar_length (c : Char) (s : Str) :
    (splitOnChar c s).length = s.count c + 1 := by
  induction s with
  | nil => simp [splitOnChar]
  | cons x xs ih =>
    simp only [splitOnChar]
    by_cases hx : x = c
    · subst hx
      simp [List.count_cons, ih]
    · simp only [if_neg hx]
      cases h : splitOnChar c xs with
      | nil => exact absurd h (splitOnChar_ne_nil c xs)
      | cons y ys =>
        rw [h] at ih
        simp only [List.length_cons] at ih ⊢
        simp [List.count_cons, hx, ih]

theorem splitOnChar_of_not_mem {c : Char} {s : Str} (h : c ∉ s) :
    splitOnChar c s = [s] := by
  induction s with
  | nil => simp [splitOnChar]
  | cons x xs ih =>
    simp only [List.mem_cons, not_or] at h
    have hx : ¬(x = c) := fun hh => h.1 hh.symm
    rw [splitOnChar, if_neg hx, ih h.2]

/-! ## C1: idempotence -/

/-- C1 counterexample: formatting is not idempotent.  For the valid input
`mov rax,1`, formatting the formatter's own output does not reproduce it
(a further trailing blank line appears). -/
theorem format_format_ne_format :
    (Format defaultConfig "mov rax,1").bind (Format defaultConfig) ≠
      Format defaultConfig "mov rax,1" := by decide

/-- C1 (amended): re-formatting a formatted output appends exactly one
extra trailing newline instead of being the identity; a third application
is then stable.  Shown at the input `mov rax,1`. -/
theorem format_appends_trailing_newline :
    Format defaultConfig "mov rax,1" = some "        mov rax, 1\n\n" ∧
    Format defaultConfig "        mov rax, 1\n\n" =
      some ("        mov rax, 1\n\n" ++ "\n") ∧
    Format defaultConfig ("        mov rax, 1\n\n" ++ "\n") =
      some ("        mov rax, 1\n\n" ++ "\n") := by decide

/-! ## C2: semantic round-trip -/

/-- C2 counterexample: the (mnemonic, operand-list) sequence is not always
preserved.  For `mov a<TAB>b, c` the operand `a<TAB>b` is re-parsed from
the formatted output as `a b`: the tabwriter rewrote the operand's inner
tab into column padding. -/
theorem roundtrip_pairs_change_on_tab_operand :
    (Parse "mov a\tb, c".data).toOption.map instructionPairs =
      some [("mov".data, ["a\tb".data, "c".data])] ∧
    ((Format defaultConfig "mov a\tb, c").bind fun y =>
        (Parse y.data).toOption.map instructionPairs) =
      some [("mov".data, ["a b".data, "c".data])] ∧
    ("a\tb".data : Str) ≠ "a b".data := by decide

/-- C2 (amended): the round-trip preserves the ordered (mnemonic,
operand-list) sequence for inputs whose operand text is tab-free; shown on
a representative three-instruction input with a comment and an
empty-remainder instruction. -/
theorem roundtrip_pairs_tab_free_representative :
    ((Format defaultConfig "mov rax,1 ;write\nmov rdi,1\n  syscall").bind fun y =>
        (Parse y.data).toOption.map instructionPairs) =
      (Parse "mov rax,1 ;write\nmov rdi,1\n  syscall".data).toOption.map instructionPairs ∧
    (Parse "mov rax,1 ;write\nmov rdi,1\n  syscall".data).toOption.map instructionPairs =
      some [("mov".data, ["rax".data, "1".data]),
            ("mov".data, ["rdi".data, "1".data]),
            ("syscall".data, [[]])] := by decide

/-! ## C7: quote safety -/

/-- C7: the line `db ";foo"` parses as a Pseudo token with keyword `db`
and verbatim operand text `";foo"`; the masked `;` inside the string
literal is invisible to the comment recognizer, which declines. -/
theorem quote_masked_pseudo_db :
    ParseCommentToken "db \";foo\"".data = (none, "db \";foo\"".data) ∧
    parseLine "db \";foo\"".data =
      .ok { token := some (.pseudoTok [] "db".data "\";foo\"".data), comment := [] } := by
  decide

/-! ## C10: raw (unmasked) comma split inside quoted operand literals -/

/-- C10: operand splitting runs on the raw text, so any comma - masked or
not - separates operands: the operand count is always one plus the raw
comma count of the remainder.  Concretely, for `mov rax, 'a,b'` the quoted
literal is split across two operands, and re-rendering joins the operands
with a comma and a space, turning the literal into `'a, b'`. -/
theorem instruction_args_split_raw :
    (∀ (line : Str) (instr : Str) (args : List Str) (rest : Str),
        ParseInstructionToken line = (some (.instructionTok instr args), rest) →
        ∃ j, args.length = ((trimLeftSpace line).drop j).count ',' + 1) ∧
    ParseInstructionToken "mov rax, 'a,b'".data =
      (some (.instructionTok "mov".data
        ["rax".data, squote :: "a".data, 'b' :: [squote]]), []) ∧
    Token.render (.instructionTok "mov".data
        ["rax".data, squote :: "a".data, 'b' :: [squote]]) =
      "mov\trax, 'a, b'".data ∧
    (squote :: "a,b".data ++ [squote]) ≠ (squote :: "a, b".data ++ [squote]) := by
  refine ⟨?_, by decide, by decide, by decide⟩
  intro line instr args rest h
  cases hf : instrFind (NoQuotes (trimLeftSpace line)) with
  | none =>
    simp only [ParseInstructionToken, hf] at h
    simp at h
  | some ij =>
    obtain ⟨i, j⟩ := ij
    simp only [ParseInstructionToken, hf, Prod.mk.injEq, Option.some.injEq,
      Token.instructionTok.injEq] at h
    refine ⟨j, ?_⟩
    rw [← h.1.2]
    simp [splitOnChar_length]

/-- C10 witness: the universal part evaluated at `mov rax, 'a,b'`: three
operands, two raw commas after the mnemonic. -/
theorem instruction_args_split_raw_witness :
    ∃ j, (["rax".data, squote :: "a".data, 'b' :: [squote]] : List Str).length =
      ((trimLeftSpace "mov rax, 'a,b'".data).drop j).count ',' + 1 :=
  instruction_args_split_raw.1 "mov rax, 'a,b'".data "mov".data
    ["rax".data, squote :: "a".data, 'b' :: [squote]] [] (by decide)

/-! ## C5: instruction recognition -/

/-- Modelled from the spec: operand splitting as the spec states it
("an empty remainder yields zero operands"), for comparison with the
source's splitting. -/
def specSplitArgs (rest : Str) : List Str :=
  if rest = [] then [] else (splitOnChar ',' rest).map trimSpace

/-- C5 counterexample: an instruction with empty remainder gets ONE empty
operand (`strings.Split("", ",") = [""]`), not zero; observably, its
rendering carries a trailing separator. -/
theorem instruction_empty_remainder_one_operand :
    ParseInstructionToken "syscall".data =
      (some (.instructionTok "syscall".data [[]]), []) ∧
    ([([] : Str)] : List Str).length = 1 ∧
    specSplitArgs [] = [] ∧
    Token.render (.instructionTok "syscall".data [[]]) = "syscall\t".data := by decide

/-- C5 (amended): whenever the instruction rule matches, the mnemonic is
the first word-character run of the (masked, left-trimmed) line and the
operands are the comma-split, trimmed remainder; the operand list is never
empty, agrees with the spec's description whenever the remainder is
nonempty, and is the one-element list containing the empty operand - not
the spec's zero operands - when the remainder is empty. -/
theorem instruction_parse_characterization (line : Str) (i j : Nat)
    (hf : instrFind (NoQuotes (trimLeftSpace line)) = some (i, j)) :
    ParseInstructionToken line =
      (some (.instructionTok ((trimLeftSpace line).take j |>.drop i)
        ((splitOnChar ',' ((trimLeftSpace line).drop j)).map trimSpace)), []) ∧
    (splitOnChar ',' ((trimLeftSpace line).drop j)).map trimSpace ≠ [] ∧
    ((trimLeftSpace line).drop j ≠ [] →
      (splitOnChar ',' ((trimLeftSpace line).drop j)).map trimSpace =
        specSplitArgs ((trimLeftSpace line).drop j)) ∧
    ((trimLeftSpace line).drop j = [] →
      (splitOnChar ',' ((trimLeftSpace line).drop j)).map trimSpace = [[]] ∧
      specSplitArgs ((trimLeftSpace line).drop j) = []) := by
  refine ⟨?_, ?_, ?_, ?_⟩
  · simp only [ParseInstructionToken, hf]
  · simp only [ne_eq, List.map_eq_nil_iff]
    exact splitOnChar_ne_nil ',' _
  · intro hne
    simp [specSplitArgs, hne]
  · intro he
    rw [he]
    simp [specSplitArgs, splitOnChar, trimSpace]

/-- C5 witness: the characterization at the bare-mnemonic line `syscall`
(word run spans positions 0-7, remainder empty). -/
theorem instruction_parse_characterization_witness :
    ParseInstructionToken "syscall".data =
      (some (.instructionTok (("syscall".data).take 7 |>.drop 0)
        ((splitOnChar ',' (("syscall".data).drop 7)).map trimSpace)), []) ∧
    ("syscall".data.drop 7 = [] →
      (splitOnChar ',' ("syscall".data.drop 7)).map trimSpace = [[]] ∧
      specSplitArgs ("syscall".data.drop 7) = []) := by
  have h := instruction_parse_characterization "syscall".data 0 7 (by decide)
  exact ⟨h.1, h.2.2.2⟩

/-! ## C6: parse failure reporting -/

/-- The recursion of `ParseLinesV1` localizes the first fault: starting
from index `k`, a good prefix shifts the reported index by its length. -/
theorem parseLinesV1_go_spec (bad r : Str) (hbad : ParseLineV1 bad = .error r)
    (pre : List Str) (hpre : ∀ l ∈ pre, (ParseLineV1 l).isOk = true) (post : List Str)
    (k : Nat) :
    (ParseLinesV1.go k (pre ++ bad :: post)).2 = some (k + pre.length, r) ∧
    (ParseLinesV1.go k (pre ++ bad :: post)).1.length = pre.length := by
  induction pre generalizing k with
  | nil =>
    simp [ParseLinesV1.go, hbad]
  | cons l pre ih =>
    have hl := hpre l (List.mem_cons_self l pre)
    cases hv : ParseLineV1 l with
    | error e => rw [hv] at hl; simp [Except.isOk, Except.toBool] at hl
    | ok v =>
      have hrec := ih (fun x hx => hpre x (List.mem_cons_of_mem l hx)) (k + 1)
      rcases hE : ParseLinesV1.go (k + 1) (pre ++ bad :: post) with ⟨ls, err⟩
      rw [hE] at hrec
      simp only [List.cons_append, ParseLinesV1.go, hv, List.append_eq, hE,
        List.length_cons]
      refine ⟨?_, ?_⟩
      · have h1 : err = some (k + 1 + pre.length, r) := hrec.1
        rw [h1]
        simp only [Option.some.injEq, Prod.mk.injEq]
        exact ⟨by omega, trivial⟩
      · have h2 : ls.length = pre.length := hrec.2
        simp [h2]

/-- C6 counterexample: the fault names the 0-based index of the failing
line, not the 1-based line number (a first-line fault reports 0), and the
Go function's first return value carries the successfully parsed prefix
alongside the fault. -/
theorem parse_fault_zero_based :
    ParseLinesV1 ["!!!".data] = ([], some (0, "!!!".data)) ∧
    ParseLinesV1 ["mov rax,1".data, "!!!".data] =
      ([{ tokens := [.instructionTok "mov".data ["rax".data, "1".data]],
          comment := [] }], some (1, "!!!".data)) ∧
    (0 : Nat) ≠ 1 := by decide

/-- C6 (amended): a line left unconsumed by the chain faults the whole
parse; the fault reports the 0-based index of the first failing line and
its residual text, and the accompanying (Go multi-return) line list is the
parsed proper prefix - callers discard it, but it is returned. -/
theorem parse_fault_reports_first_bad_line (pre : List Str) (bad : Str)
    (post : List Str) (r : Str)
    (hpre : ∀ l ∈ pre, (ParseLineV1 l).isOk = true)
    (hbad : ParseLineV1 bad = .error r) :
    (ParseLinesV1 (pre ++ bad :: post)).2 = some (pre.length, r) ∧
    (ParseLinesV1 (pre ++ bad :: post)).1.length = pre.length := by
  have h := parseLinesV1_go_spec bad r hbad pre hpre post 0
  simpa [ParseLinesV1] using h

/-- C6 witness: one good line, then `!!!` (no recognizer consumes it):
the fault carries index 1 and residual `!!!`; the prefix has one line. -/
theorem parse_fault_reports_first_bad_line_witness :
    (ParseLinesV1 (["mov rax,1".data] ++ "!!!".data :: [])).2 =
      some (["mov rax,1".data].length, "!!!".data) ∧
    (ParseLinesV1 (["mov rax,1".data] ++ "!!!".data :: [])).1.length =
      ["mov rax,1".data].length :=
  parse_fault_reports_first_bad_line ["mov rax,1".data] "!!!".data [] "!!!".data
    (by decide) (by decide)

/-! ## C9: IsEmpty and blank lines -/

/-- The eight characters of the Latin-1 `unicode.IsSpace` fragment. -/
def gospaceChars : List Char :=
  [' ', '\t', '\n', Char.ofNat 11, Char.ofNat 12, '\r', Char.ofNat 133, Char.ofNat 160]

theorem isGoSpace_mem {c : Char} (h : isGoSpace c = true) : c ∈ gospaceChars := by
  simp only [isGoSpace, Bool.or_eq_true, decide_eq_true_eq] at h
  simp only [gospaceChars, List.mem_cons, List.not_mem_nil, or_false]
  tauto

theorem gospace_not_quote {c : Char} (h : isGoSpace c = true) :
    (c = squote || c = dquote) = false := by
  have hm := isGoSpace_mem h
  simp only [gospaceChars, List.mem_cons, List.not_mem_nil, or_false] at hm
  rcases hm with rfl | rfl | rfl | rfl | rfl | rfl | rfl | rfl <;> decide

theorem NoQuotes_all_gospace {s : Str} (h : s.all isGoSpace = true) : NoQuotes s = s := by
  induction s with
  | nil => rfl
  | cons c rest ih =>
    simp only [List.all_cons, Bool.and_eq_true] at h
    rw [NoQuotes, gospace_not_quote h.1, ih h.2]
    simp

theorem not_mem_of_all_gospace {s : Str} {c : Char} (h : s.all isGoSpace = true)
    (hc : isGoSpace c = false) : c ∉ s := by
  intro hm
  have := List.all_eq_true.mp h c hm
  rw [hc] at this
  exact Bool.false_ne_true this

theorem charIndex_none_of_not_mem {c : Char} {s : Str} (h : c ∉ s) :
    charIndex c s = none := by
  induction s with
  | nil => rfl
  | cons x xs ih =>
    simp only [List.mem_cons, not_or] at h
    rw [charIndex, if_neg (fun hh => h.1 hh.symm), ih h.2]
    rfl

/-- Decidable side condition: every keyword in the list is nonempty and
its head character case-folds apart from every Go whitespace character. -/
def kwHeadsNonSpace (kws : List Str) : Bool :=
  kws.all fun kw =>
    !kw.isEmpty && gospaceChars.all fun c => !(asciiLower c = asciiLower (kw.headD 'a'))

theorem ciMatchAt_gospace_false {s : Str} (hall : s.all isGoSpace = true)
    (pos : Nat) {kw : Str}
    (hkw : (!kw.isEmpty && gospaceChars.all
        fun c => !(asciiLower c = asciiLower (kw.headD 'a'))) = true) :
    ciMatchAt s pos kw = false := by
  rw [Bool.and_eq_true] at hkw
  obtain ⟨hne, hheads⟩ := hkw
  cases kw with
  | nil => simp at hne
  | cons k ks =>
    rw [ciMatchAt, List.all_eq_false]
    refine ⟨0, by simp, ?_⟩
    cases hd : (s.drop (pos + 0)).head? with
    | none => simp [hd]
    | some c =>
      have hcs : c ∈ s := by
        have h1 : c ∈ s.drop (pos + 0) := by
          cases hs : s.drop (pos + 0) with
          | nil => rw [hs] at hd; simp at hd
          | cons a rest =>
            rw [hs] at hd
            simp only [List.head?_cons, Option.some.injEq] at hd
            simp [hd]
        exact List.mem_of_mem_drop h1
      have hcg : isGoSpace c = true := List.all_eq_true.mp hall c hcs
      have hmem := isGoSpace_mem hcg
      have := List.all_eq_true.mp hheads c hmem
      simp only [List.headD_cons] at this
      simp only [hd, List.get?_eq_getElem?, List.getElem?_cons_zero]
      simpa using this

theorem wholeLineKwFind_gospace {kws : List Str} {s : Str}
    (hall : s.all isGoSpace = true) (hkw : kwHeadsNonSpace kws = true) :
    wholeLineKwFind kws s = none := by
  have hf : (kws.find? fun kw =>
      ciMatchAt s (skipReSpace s 0) kw &&
      match (s.drop (skipReSpace s 0 + kw.length)).head? with
      | some c => isReSpace c
      | none => false) = none := by
    rw [List.find?_eq_none]
    intro kw hmem
    have := List.all_eq_true.mp hkw kw hmem
    rw [ciMatchAt_gospace_false hall _ this]
    simp
  simp only [wholeLineKwFind, hf]
  rfl

theorem pseudoKwAt_gospace {kws : List Str} {s : Str}
    (hall : s.all isGoSpace = true) (hkw : kwHeadsNonSpace kws = true) (pos : Nat) :
    pseudoKwAt kws s pos = none := by
  have hf : (kws.find? fun kw =>
      ciMatchAt s pos kw &&
      match (s.drop (pos + kw.length)).head? with
      | some c => isReSpace c || c = dquote
      | none => false) = none := by
    rw [List.find?_eq_none]
    intro kw hmem
    have := List.all_eq_true.mp hkw kw hmem
    rw [ciMatchAt_gospace_false hall _ this]
    simp
  simp only [pseudoKwAt, hf]
  rfl

theorem pseudoTryAt_gospace {kws : List Str} {s : Str}
    (hall : s.all isGoSpace = true) (hkw : kwHeadsNonSpace kws = true) (k : Nat) :
    pseudoTryAt kws s k = none := by
  have h := pseudoKwAt_gospace hall hkw
  simp only [pseudoTryAt, h]
  simp only [Option.orElse]
  cases hk1 : (s.drop k).head? <;> cases hk2 : (s.drop (k + 1)).head? <;>
    simp [hk1, hk2]

theorem pseudoFindGo_gospace {kws : List Str} {s : Str}
    (hall : s.all isGoSpace = true) (hkw : kwHeadsNonSpace kws = true) :
    ∀ (rest : Str) (k : Nat), pseudoFindGo kws s k rest = none := by
  intro rest
  induction rest with
  | nil => intro k; simp [pseudoFindGo, pseudoTryAt_gospace hall hkw]
  | cons c cs ih =>
    intro k
    simp only [pseudoFindGo, pseudoTryAt_gospace hall hkw]
    split
    · rfl
    · exact ih (k + 1)

theorem ParseCommentToken_gospace {s : Str} (h : s.all isGoSpace = true) :
    ParseCommentToken s = (none, s) := by
  have hq := NoQuotes_all_gospace h
  have hs : (';' : Char) ∉ s := not_mem_of_all_gospace h (by decide)
  simp only [ParseCommentToken, hq, charIndex_none_of_not_mem hs]

theorem ParseSectionToken_gospace {s : Str} (h : s.all isGoSpace = true) :
    ParseSectionToken s = (none, s) := by
  have hq := NoQuotes_all_gospace h
  simp only [ParseSectionToken, hq,
    wholeLineKwFind_gospace h (show kwHeadsNonSpace sectionKeywords = true by decide)]

theorem ParseDirectiveToken_gospace {s : Str} (h : s.all isGoSpace = true) :
    ParseDirectiveToken s = (none, s) := by
  have hq := NoQuotes_all_gospace h
  simp only [ParseDirectiveToken, hq,
    wholeLineKwFind_gospace h (show kwHeadsNonSpace directiveKeywords = true by decide)]

theorem ParsePseudoToken_gospace {s : Str} (kws : List Str)
    (h : s.all isGoSpace = true) (hkw : kwHeadsNonSpace kws = true) :
    ParsePseudoTokenWith kws s = (none, s) := by
  have hq := NoQuotes_all_gospace h
  simp only [ParsePseudoTokenWith, hq, pseudoFind, pseudoFindGo_gospace h hkw]

theorem ParseLabelToken_gospace {s : Str} (h : s.all isGoSpace = true) :
    ParseLabelToken s = (none, s) := by
  have hq := NoQuotes_all_gospace h
  have hs : (':' : Char) ∉ s := not_mem_of_all_gospace h (by decide)
  simp only [ParseLabelToken, hq, charIndex_none_of_not_mem hs]

theorem ParseInstructionToken_gospace {s : Str} (h : s.all isGoSpace = true) :
    ParseInstructionToken s = (none, []) := by
  have ht : trimLeftSpace s = [] := by
    simp only [trimLeftSpace, List.dropWhile_eq_nil_iff]
    intro c hc
    exact List.all_eq_true.mp h c hc
  simp only [ParseInstructionToken, ht]
  rfl

/-- A declining parser step is skipped by the chain (on a nonempty line). -/
theorem runChain_cons_decline {p : TokenParser} {ps : List TokenParser} {s : Str}
    (hp : p s = (none, s)) (hs : s ≠ []) :
    runChain (p :: ps) s = runChain ps s := by
  simp [runChain, hp, hs]

/-- A parser consuming the whole line ends the chain with no tokens when
it produces none. -/
theorem runChain_cons_final {p : TokenParser} {ps : List TokenParser} {s : Str}
    (hp : p s = (none, [])) : runChain (p :: ps) s = ([], []) := by
  simp [runChain, hp]

/-- A whitespace-only source line parses to the empty `Line`: every rule
of the chain declines on it. -/
theorem parseLine_gospace (s : Str) (h : s.all isGoSpace = true) :
    parseLine s = .ok { token := none, comment := [] } := by
  by_cases hs : s = []
  · subst hs; rfl
  · have h4 : ParsePseudoToken s = (none, s) :=
      ParsePseudoToken_gospace pseudoKeywords h
        (show kwHeadsNonSpace pseudoKeywords = true by decide)
    have hchain : runChain TokenParsers s = ([], []) := by
      rw [TokenParsers,
        runChain_cons_decline (ParseCommentToken_gospace h) hs,
        runChain_cons_decline (ParseSectionToken_gospace h) hs,
        runChain_cons_decline (ParseDirectiveToken_gospace h) hs,
        runChain_cons_decline h4 hs,
        runChain_cons_decline (ParseLabelToken_gospace h) hs,
        runChain_cons_final (ParseInstructionToken_gospace h)]
    simp [parseLine, hchain, popCommentToken]

/-- C9 counterexample: a line consisting of just a semicolon carries an
empty comment body, which is the zero CommentToken; the parsed line is
IsEmpty although the source line is not blank/whitespace-only. -/
theorem semicolon_line_is_empty :
    parseLine [';'] = .ok { token := none, comment := [] } ∧
    Line.IsEmpty { token := none, comment := [] } = true ∧
    ([';'].all isGoSpace) = false := by decide

/-- C9 (amended): `IsEmpty()` holds iff the line has no structural token
and its comment equals the zero CommentToken (empty body).  Every
blank/whitespace-only source line parses to such a line, but the converse
fails: a line holding only `;` (empty comment body) is also IsEmpty. -/
theorem isEmpty_characterization :
    (∀ l : Line, l.IsEmpty = true ↔ (l.token = none ∧ l.comment = [])) ∧
    (∀ s : Str, s.all isGoSpace = true →
      parseLine s = .ok { token := none, comment := [] }) := by
  constructor
  · intro l
    simp [Line.IsEmpty, Option.isNone_iff_eq_none, List.isEmpty_iff]
  · exact parseLine_gospace

/-- C9 witness: the characterization applied to the whitespace-only line
of one space, one tab, one space. -/
theorem isEmpty_characterization_witness :
    parseLine " \t ".data = .ok { token := none, comment := [] } :=
  isEmpty_characterization.2 " \t ".data (by decide)

/-! ## C3: comment column bound for instruction lines -/

/-- C3: for a block line carrying an instruction token and a comment, the
overlay appends `max(CommentIndent - (len(s)+1), 1)` spaces and then the
comment; the padding is at least one space, and the resulting 1-based
column of the `;` is the configured comment column when the rendered code
is short enough (`len(s) < CommentIndent - 1`), and `len(s) + 2`
otherwise. -/
theorem comment_column_bound (cfg : FormatConfig) (block : List Line) (i : Nat)
    (prev s : Str) (rest : List Str) (line : Line) (t : Token) (body : Str)
    (hline : block.get? i = some line) (hcom : line.comment = body)
    (hne : body ≠ []) (htok : line.token = some t)
    (hinstr : t.isInstruction = true) :
    overlayGo cfg block i prev (s :: rest) =
      (s ++ spaces (commentPad cfg s) ++ [';', ' '] ++ body) ::
        overlayGo cfg block (i + 1)
          (s ++ spaces (commentPad cfg s) ++ [';', ' '] ++ body) rest ∧
    1 ≤ commentPad cfg s ∧
    ((s.length : Int) + commentPad cfg s + 1 =
      if (s.length : Int) < cfg.commentIndent - 1 then cfg.commentIndent
      else (s.length : Int) + 2) := by
  refine ⟨?_, ?_, ?_⟩
  · have hline' : block[i]? = some line := by
      rw [← List.get?_eq_getElem?]
      exact hline
    simp [overlayGo, hline', hcom, hne, htok, hinstr, List.append_assoc]
  · simp only [commentPad]
    rcases le_total (cfg.commentIndent - ((s.length : Int) + 1)) 1 with hc | hc
    · rw [max_eq_right hc]; omega
    · rw [max_eq_left hc]; omega
  · simp only [commentPad]
    rcases le_total (cfg.commentIndent - ((s.length : Int) + 1)) 1 with hc | hc
    · rw [max_eq_right hc]
      split <;> omega
    · rw [max_eq_left hc]
      split <;> omega

/-- C3 witness: rendered code of length 18 with the default comment column
40: the overlay pads to one space before column 40, i.e. 21 spaces, and
the semicolon sits at 1-based column 40. -/
theorem comment_column_bound_witness :
    overlayGo defaultConfig
        [{ token := some (.instructionTok "mov".data ["rax".data, "1".data]),
           comment := "c".data }] 0 []
        ["        mov rax, 1".data] =
      ["        mov rax, 1".data ++ spaces (commentPad defaultConfig "        mov rax, 1".data) ++
        [';', ' '] ++ "c".data] ∧
    1 ≤ commentPad defaultConfig "        mov rax, 1".data ∧
    (("        mov rax, 1".data.length : Int) +
        commentPad defaultConfig "        mov rax, 1".data + 1 = 40) := by
  have h := comment_column_bound defaultConfig
    [{ token := some (.instructionTok "mov".data ["rax".data, "1".data]),
       comment := "c".data }] 0 [] "        mov rax, 1".data []
    { token := some (.instructionTok "mov".data ["rax".data, "1".data]),
      comment := "c".data }
    (.instructionTok "mov".data ["rax".data, "1".data]) "c".data
    (by decide) rfl (by decide) rfl (by decide)
  refine ⟨?_, h.2.1, ?_⟩
  · rw [h.1]
    simp [overlayGo]
  · have h3 := h.2.2
    rw [if_pos (by decide : (("        mov rax, 1".data.length : Int)) <
      defaultConfig.commentIndent - 1)] at h3
    exact h3

/-! ## C8: non-instruction comments get a tab, not the comment column -/

theorem splitOnChar_append_cons (c : Char) (p t : Str) (hp : c ∉ p) :
    splitOnChar c (p ++ c :: t) = p :: splitOnChar c t := by
  induction p with
  | nil => simp [splitOnChar]
  | cons x xs ih =>
    simp only [List.mem_cons, not_or] at hp
    have hx : ¬(x = c) := fun hh => hp.1 hh.symm
    simp only [List.cons_append, splitOnChar, if_neg hx, List.append_eq]
    rw [ih hp.2]

/-- C8 counterexample: the appended tab is expanded by the final
re-alignment to the block's column width, not to exactly one space: in a
block of two commented label lines the first comment is padded seven
spaces so that both comments align. -/
theorem noninstr_comment_padding_not_one :
    writeBlock defaultConfig
        [{ token := some (.labelTok "foo".data), comment := "a".data },
         { token := some (.labelTok "longlabel".data), comment := "b".data }] =
      "foo:       ; a\nlonglabel: ; b\n\n".data ∧
    "foo:       ; a\nlonglabel: ; b\n\n".data ≠
      "foo: ; a\nlonglabel: ; b\n\n".data := by decide

/-- C8 (amended): a non-instruction line with a comment gets one tab
appended (never the configured comment column); the final alignment
expands the tab to at least one space - exactly one when no other line of
the block shares the column, as in a singleton block, where the output is
the token text, one space, and the comment, for every configuration. -/
theorem noninstr_comment_single_tab (cfg : FormatConfig) (l : Line) (t : Token)
    (body : Str) (htok : l.token = some t) (hni : t.isInstruction = false)
    (hcom : l.comment = body) (hne : body ≠ [])
    (hTab : '\t' ∉ t.render) (hNL : '\n' ∉ t.render) (hTabB : '\t' ∉ body) :
    writeBlock cfg [l] =
      t.render ++ ' ' :: ';' :: ' ' :: body ++ ['\n', '\n'] := by
  have h1 : writeLinesNoComment [l] cfg = [t.render] := by
    simp [writeLinesNoComment, htok, hni]
  have h2 : valign [t.render] = t.render ++ ['\n'] := by
    simp [valign, splitOnChar_of_not_mem hTab, padCells, msize, padGo]
  have h3 : splitOnChar '\n' (t.render ++ ['\n']) = [t.render, []] := by
    rw [splitOnChar_append_cons _ _ _ hNL]
    rfl
  have h4 : overlayGo cfg [l] 0 [] [t.render, []] =
      [t.render ++ '\t' :: ';' :: ' ' :: body, []] := by
    simp [overlayGo, htok, hni, hcom, hne]
  have hTabC : '\t' ∉ (';' :: ' ' :: body) := by
    simp only [List.mem_cons, not_or]
    exact ⟨by decide, by decide, hTabB⟩
  have h5 : splitOnChar '\t' (t.render ++ '\t' :: ';' :: ' ' :: body) =
      [t.render, ';' :: ' ' :: body] := by
    rw [splitOnChar_append_cons _ _ _ hTab, splitOnChar_of_not_mem hTabC]
  rw [writeBlock, h1, h2, h3, h4]
  simp only [valign, List.map, h5, splitOnChar]
  simp [maxList, padRight, spaces, Nat.max_zero, Nat.add_sub_cancel,
    List.append_assoc]

/-- C8 witness: a singleton block holding a commented label renders with
exactly one space between `foo:` and `; a`, for the default config. -/
theorem noninstr_comment_single_tab_witness :
    writeBlock defaultConfig
        [{ token := some (.labelTok "foo".data), comment := "a".data }] =
      (Token.labelTok "foo".data).render ++ ' ' :: ';' :: ' ' :: "a".data ++ ['\n', '\n'] :=
  noninstr_comment_single_tab defaultConfig
    { token := some (.labelTok "foo".data), comment := "a".data }
    (.labelTok "foo".data) "a".data rfl (by decide) rfl (by decide)
    (by decide) (by decide) (by decide)

/-! ## C4: section isolation - tabwriter infrastructure lemmas -/

theorem msize_append (a b : List (List Str)) : msize (a ++ b) = msize a + msize b := by
  simp [msize]

theorem msize_map_tail (R : List (List Str)) (h : ∀ r ∈ R, 1 ≤ r.length) :
    msize (R.map List.tail) + R.length = msize R := by
  induction R with
  | nil => rfl
  | cons r R ih =>
    have hr : 1 ≤ r.length := h r (List.mem_cons_self r R)
    have ht : r.tail.length = r.length - 1 := List.length_tail r
    have := ih fun x hx => h x (List.mem_cons_of_mem r hx)
    simp only [msize, List.map_cons, List.sum_cons, List.length_cons] at *
    omega

theorem msize_head_ge (row : List Str) (rest : List (List Str)) :
    row.length + 1 ≤ msize (row :: rest) := by
  simp only [msize, List.map_cons, List.sum_cons]
  omega

/-- With sufficient fuel, the tabwriter emits one output line per row. -/
theorem padGo_length : ∀ (fuel : Nat) (rows : List (List Str)),
    msize rows < fuel → (padGo fuel rows).length = rows.length := by
  intro fuel
  induction fuel with
  | zero => intro rows h; omega
  | succ fuel ih =>
    intro rows h
    cases rows with
    | nil => rfl
    | cons row rest =>
      have hm : msize (row :: rest) = row.length + 1 + msize rest := by
        simp [msize]
      by_cases hr : row.length ≤ 1
      · simp only [padGo, if_pos hr, List.length_cons]
        rw [ih rest (by omega)]
      · simp only [padGo, if_neg hr]
        set p := fun r : List Str => decide (1 < r.length) with hp
        have hpos : p row = true := by simp [hp]; omega
        have hrunlen : ((row :: rest).takeWhile p).length +
            ((row :: rest).dropWhile p).length = rest.length + 1 := by
          rw [← List.length_append, List.takeWhile_append_dropWhile]
          simp
        have hmem : ∀ r ∈ (row :: rest).takeWhile p, 1 ≤ r.length := by
          intro r hrm
          have := List.mem_takeWhile_imp hrm
          simp only [hp, decide_eq_true_eq] at this
          omega
        have hms : msize ((row :: rest).takeWhile p) +
            msize ((row :: rest).dropWhile p) = msize (row :: rest) := by
          rw [← msize_append, List.takeWhile_append_dropWhile]
        have htail : msize (((row :: rest).takeWhile p).map List.tail) +
            ((row :: rest).takeWhile p).length = msize ((row :: rest).takeWhile p) :=
          msize_map_tail _ hmem
        have hrun3 : 3 ≤ msize ((row :: rest).takeWhile p) := by
          rw [List.takeWhile_cons_of_pos hpos]
          have := msize_head_ge row (rest.takeWhile p)
          omega
        have hrunpos : 1 ≤ ((row :: rest).takeWhile p).length := by
          rw [List.takeWhile_cons_of_pos hpos]
          simp
        have h1 : msize (((row :: rest).takeWhile p).map List.tail) < fuel := by omega
        have h2 : msize ((row :: rest).dropWhile p) < fuel := by omega
        rw [List.length_append, List.length_zipWith, ih _ h1, ih _ h2]
        simp only [List.length_map, Nat.min_self, List.length_cons]
        omega

/-- Membership in a `zipWith` comes from members of both lists. -/
theorem mem_zipWith {α β γ : Type} {f : α → β → γ} {x : γ} :
    ∀ {as : List α} {bs : List β}, x ∈ List.zipWith f as bs →
      ∃ a ∈ as, ∃ b ∈ bs, x = f a b := by
  intro as
  induction as with
  | nil => intro bs h; simp at h
  | cons a as ih =>
    intro bs h
    cases bs with
    | nil => simp at h
    | cons b bs =>
      simp only [List.zipWith_cons_cons, List.mem_cons] at h
      rcases h with h | h
      · exact ⟨a, List.mem_cons_self a as, b, List.mem_cons_self b bs, h⟩
      · obtain ⟨a', ha, b', hb, hx⟩ := ih h
        exact ⟨a', List.mem_cons_of_mem a ha, b', List.mem_cons_of_mem b hb, hx⟩

/-- The tabwriter introduces only pad characters: a character class
avoided by every input cell and containing no space is avoided by every
output line. -/
theorem padGo_not_mem {c : Char} (hc : c ≠ ' ') :
    ∀ (fuel : Nat) (rows : List (List Str)),
      (∀ row ∈ rows, ∀ cell ∈ row, c ∉ cell) →
      ∀ out ∈ padGo fuel rows, c ∉ out := by
  intro fuel
  induction fuel with
  | zero => intro rows _ out hout; simp [padGo] at hout
  | succ fuel ih =>
    intro rows hrows out hout
    cases rows with
    | nil => simp [padGo] at hout
    | cons row rest =>
      by_cases hr : row.length ≤ 1
      · simp only [padGo, if_pos hr, List.mem_cons] at hout
        rcases hout with rfl | hout
        · cases row with
          | nil => simp
          | cons cell cs =>
            exact hrows (cell :: cs) (List.mem_cons_self _ _) cell
              (List.mem_cons_self _ _)
        · exact ih rest (fun r hrm => hrows r (List.mem_cons_of_mem row hrm)) out hout
      · simp only [padGo, if_neg hr, List.mem_append] at hout
        set p := fun r : List Str => decide (1 < r.length) with hp
        rcases hout with hout | hout
        · obtain ⟨hd, hhd, tl, htl, rfl⟩ := mem_zipWith hout
          obtain ⟨r0, hr0, rfl⟩ := List.mem_map.mp hhd
          have hr0m : r0 ∈ row :: rest := List.takeWhile_subset p hr0
          intro hcmem
          rcases List.mem_append.mp hcmem with hcm | hcm
          · rcases List.mem_append.mp hcm with hcm | hcm
            · cases r0 with
              | nil => simp at hcm
              | cons cell cs =>
                exact hrows _ hr0m cell (List.mem_cons_self _ _) hcm
            · have := List.eq_of_mem_replicate hcm
              exact hc this
          · revert hcm
            refine ih _ ?_ tl htl
            intro r' hr' cell hcell
            obtain ⟨r1, hr1, rfl⟩ := List.mem_map.mp hr'
            have hr1m : r1 ∈ row :: rest := List.takeWhile_subset p hr1
            exact hrows r1 hr1m cell (List.mem_of_mem_tail hcell)
        · refine ih _ ?_ out hout
          intro r' hr' cell hcell
          have : r' ∈ row :: rest := List.dropWhile_subset p hr'
          exact hrows r' this cell hcell

theorem padGo_nil_eq (fuel : Nat) : padGo fuel [] = [] := by
  cases fuel <;> rfl

theorem getLast?_cons_of_ne_nil {α : Type} {a : α} {l : List α} (h : l ≠ []) :
    (a :: l).getLast? = l.getLast? := by
  cases l with
  | nil => exact absurd rfl h
  | cons b bs => exact List.getLast?_cons_cons

/-- A final row that is already in its last (untabbed) cell is emitted
verbatim as the final output line. -/
theorem padGo_getLast : ∀ (fuel : Nat) (rows : List (List Str)) (r : List Str),
    msize rows < fuel → rows.getLast? = some r → r.length ≤ 1 →
    (padGo fuel rows).getLast? = some (r.headD []) := by
  intro fuel
  induction fuel with
  | zero => intro rows r h; omega
  | succ fuel ih =>
    intro rows r h hlast hr
    cases rows with
    | nil => simp at hlast
    | cons row rest =>
      have hm : msize (row :: rest) = row.length + 1 + msize rest := by
        simp [msize]
      by_cases hrow : row.length ≤ 1
      · simp only [padGo, if_pos hrow]
        cases rest with
        | nil =>
          simp only [List.getLast?_singleton, Option.some.injEq] at hlast
          subst hlast
          simp [padGo_nil_eq]
        | cons b bs =>
          rw [List.getLast?_cons_cons] at hlast
          have hIH := ih (b :: bs) r (by omega) hlast hr
          cases hX : padGo fuel (b :: bs) with
          | nil =>
            have := padGo_length fuel (b :: bs) (by omega)
            rw [hX] at this
            simp at this
          | cons y ys =>
            rw [hX] at hIH
            rw [getLast?_cons_of_ne_nil (by simp [hX])]
            exact hX ▸ hIH
      · simp only [padGo, if_neg hrow]
        set p := fun q : List Str => decide (1 < q.length) with hp
        have hpos : p row = true := by simp [hp]; omega
        have hrm : r ∈ row :: rest := by
          have hne : (row :: rest) ≠ ([] : List (List Str)) := by simp
          rw [List.getLast?_eq_getLast _ hne] at hlast
          have heq : (row :: rest).getLast hne = r := by simpa using hlast
          rw [← heq]
          exact List.getLast_mem hne
        have hpr : p r = false := by simp [hp]; omega
        have hdne : (row :: rest).dropWhile p ≠ [] := by
          intro hcon
          have := List.dropWhile_eq_nil_iff.mp hcon r hrm
          rw [hpr] at this
          exact Bool.false_ne_true this
        have hmem : ∀ q ∈ (row :: rest).takeWhile p, 1 ≤ q.length := by
          intro q hq
          have := List.mem_takeWhile_imp hq
          simp only [hp, decide_eq_true_eq] at this
          omega
        have hms : msize ((row :: rest).takeWhile p) +
            msize ((row :: rest).dropWhile p) = msize (row :: rest) := by
          rw [← msize_append, List.takeWhile_append_dropWhile]
        have htail : msize (((row :: rest).takeWhile p).map List.tail) +
            ((row :: rest).takeWhile p).length = msize ((row :: rest).takeWhile p) :=
          msize_map_tail _ hmem
        have hrun3 : 3 ≤ msize ((row :: rest).takeWhile p) := by
          rw [List.takeWhile_cons_of_pos hpos]
          have := msize_head_ge row (rest.takeWhile p)
          omega
        have hlast' : ((row :: rest).dropWhile p).getLast? = some r := by
          have hsplit := List.takeWhile_append_dropWhile p (row :: rest)
          have := @List.getLast?_append _ ((row :: rest).takeWhile p)
            ((row :: rest).dropWhile p)
          rw [hsplit] at this
          rw [this] at hlast
          cases hdl : ((row :: rest).dropWhile p).getLast? with
          | none =>
            cases hdd : (row :: rest).dropWhile p with
            | nil => exact absurd hdd hdne
            | cons z zs =>
              rw [hdd, List.getLast?_eq_getLast _ (by simp)] at hdl
              simp at hdl
          | some z =>
            rw [hdl,
              show (some z).or (((row :: rest).takeWhile p).getLast?) = some z
                from rfl] at hlast
            exact hlast
        have hIH := ih ((row :: rest).dropWhile p) r (by omega) hlast' hr
        rw [List.getLast?_append]
        rw [hIH]
        rfl

/-- The comment overlay touches rows in place: the row count is kept. -/
theorem overlayGo_length (cfg : FormatConfig) (block : List Line) :
    ∀ (ls : List Str) (i : Nat) (prev : Str),
      (overlayGo cfg block i prev ls).length = ls.length := by
  intro ls
  induction ls with
  | nil => intro i prev; rfl
  | cons s rest ih =>
    intro i prev
    rw [overlayGo]
    cases hbi : block.get? i with
    | none => rfl
    | some line =>
      by_cases hc : line.comment = []
      · simp only [if_pos hc, List.length_cons, ih]
      · simp only [if_neg hc, List.length_cons, ih]

/-- Rows beyond the block length - in particular the tabwriter's trailing
empty row - are left untouched by the overlay. -/
theorem overlayGo_getLast (cfg : FormatConfig) (block : List Line) :
    ∀ (ls : List Str) (i : Nat) (prev : Str),
      block.length < i + ls.length →
      (overlayGo cfg block i prev ls).getLast? = ls.getLast? := by
  intro ls
  induction ls with
  | nil => intro i prev _; rfl
  | cons s rest ih =>
    intro i prev hlen
    rw [overlayGo]
    cases hbi : block.get? i with
    | none => rfl
    | some line =>
      have hi : i < block.length := by
        by_contra hcon
        push_neg at hcon
        rw [List.get?_eq_none.mpr hcon] at hbi
        exact Option.noConfusion hbi
      cases rest with
      | nil => simp only [List.length_cons, List.length_nil] at hlen; omega
      | cons r rs =>
        have hlen' : block.length < (i + 1) + (r :: rs).length := by
          simp only [List.length_cons] at hlen ⊢
          omega
        have key : ∀ y : Str,
            (y :: overlayGo cfg block (i + 1) y (r :: rs)).getLast? =
              (s :: r :: rs).getLast? := by
          intro y
          have hne : overlayGo cfg block (i + 1) y (r :: rs) ≠ [] := by
            intro hcon
            have := overlayGo_length cfg block (r :: rs) (i + 1) y
            rw [hcon] at this
            simp at this
          rw [getLast?_cons_of_ne_nil hne, ih (i + 1) y hlen',
            List.getLast?_cons_cons]
        by_cases hc : line.comment = []
        · simp only [if_pos hc]
          exact key s
        · simp only [if_neg hc]
          exact key _

/-- Every character of a piece produced by `splitOnChar` is a character
of the split string. -/
theorem mem_of_mem_splitOnChar {c x : Char} :
    ∀ {s piece : Str}, piece ∈ splitOnChar c s → x ∈ piece → x ∈ s := by
  intro s
  induction s with
  | nil =>
    intro piece hp hx
    simp only [splitOnChar, List.mem_singleton] at hp
    subst hp
    simp at hx
  | cons y ys ih =>
    intro piece hp hx
    by_cases hy : y = c
    · rw [splitOnChar, if_pos hy] at hp
      rcases List.mem_cons.mp hp with rfl | hp
      · simp at hx
      · exact List.mem_cons_of_mem y (ih hp hx)
    · rw [splitOnChar, if_neg hy] at hp
      cases hsp : splitOnChar c ys with
      | nil => exact absurd hsp (splitOnChar_ne_nil c ys)
      | cons z zs =>
        rw [hsp] at hp
        rcases List.mem_cons.mp hp with rfl | hp
        · rcases List.mem_cons.mp hx with rfl | hx
          · exact List.mem_cons_self x ys
          · refine List.mem_cons_of_mem y (ih ?_ hx)
            rw [hsp]
            exact List.mem_cons_self z zs
        · refine List.mem_cons_of_mem y (ih ?_ hx)
          rw [hsp]
          exact List.mem_cons_of_mem z hp

/-- Splitting the newline-joined rows on newlines recovers the rows plus
one trailing empty row (the `strings.Split` artifact in `writeBlock`). -/
theorem splitOnChar_flatten (c : Char) :
    ∀ (ps : List Str), (∀ p ∈ ps, c ∉ p) →
      splitOnChar c ((ps.map (· ++ [c])).flatten) = ps ++ [[]] := by
  intro ps
  induction ps with
  | nil => intro _; rfl
  | cons p ps ih =>
    intro h
    have hp : c ∉ p := h p (List.mem_cons_self p ps)
    simp only [List.map_cons, List.flatten_cons, List.append_assoc, List.cons_append,
      List.nil_append]
    rw [splitOnChar_append_cons c p _ hp,
      ih fun q hq => h q (List.mem_cons_of_mem p hq)]

/-- A nonempty newline-joined row list ends with a newline. -/
theorem flatten_ends_newline (c : Char) :
    ∀ (qs : List Str), qs ≠ [] →
      ∃ A, (qs.map (· ++ [c])).flatten = A ++ [c] := by
  intro qs
  induction qs with
  | nil => intro h; exact absurd rfl h
  | cons q qs ih =>
    intro _
    cases qs with
    | nil => exact ⟨q, by simp⟩
    | cons q' qs' =>
      obtain ⟨A, hA⟩ := ih (by simp)
      refine ⟨q ++ [c] ++ A, ?_⟩
      simp only [List.map_cons, List.flatten_cons] at hA ⊢
      rw [hA]
      simp [List.append_assoc]

/-- A newline-joined row list whose final row is empty and which has at
least two rows ends with a blank line. -/
theorem flatten_ends_double_newline (c : Char) (qs : List Str)
    (h2 : 2 ≤ qs.length) (hlast : qs.getLast? = some []) :
    ∃ A, (qs.map (· ++ [c])).flatten = A ++ [c, c] := by
  have hne : qs ≠ [] := by
    intro hcon
    rw [hcon] at h2
    simp at h2
  have hsplit := List.dropLast_append_getLast hne
  have hlastv : qs.getLast hne = [] := by
    rw [List.getLast?_eq_getLast _ hne] at hlast
    simpa using hlast
  have hdne : qs.dropLast ≠ [] := by
    intro hcon
    have := List.length_dropLast qs
    rw [hcon] at this
    simp at this
    omega
  obtain ⟨A, hA⟩ := flatten_ends_newline c qs.dropLast hdne
  refine ⟨A, ?_⟩
  conv_lhs => rw [← hsplit]
  rw [hlastv]
  simp only [List.map_append, List.flatten_append, List.map_cons, List.map_nil,
    List.flatten_cons, List.flatten_nil, List.nil_append, List.append_nil]
  rw [hA]
  simp [List.append_assoc]

/-- The line's renderable content is newline-free (true for every line
whose token was parsed from a physical source line). -/
def lineNLFree (l : Line) : Bool :=
  match l.token with
  | some t => decide ('\n' ∉ t.render)
  | none => true

/-- All lines of a block render newline-free. -/
def blockNLFree (block : List Line) : Bool := block.all lineNLFree

theorem writeLinesNoComment_nl_free {block : List Line} {cfg : FormatConfig}
    (hnl : blockNLFree block = true) :
    ∀ l ∈ writeLinesNoComment block cfg, '\n' ∉ l := by
  intro l hl
  obtain ⟨line, hline, rfl⟩ := List.mem_map.mp hl
  have hfree := List.all_eq_true.mp hnl line hline
  cases htok : line.token with
  | none => simp [htok]
  | some t =>
    rw [lineNLFree, htok, decide_eq_true_eq] at hfree
    simp only [htok]
    intro hmem
    rcases List.mem_append.mp hmem with hm | hm
    · split at hm
      · exact absurd (List.eq_of_mem_replicate hm) (by decide)
      · simp at hm
    · exact hfree hm

/-- Every nonempty block's serialization ends with a blank line (its text
ends in two newlines). -/
theorem writeBlock_ends_blank (cfg : FormatConfig) (block : List Line)
    (hne : block ≠ []) (hnl : blockNLFree block = true) :
    ∃ s, writeBlock cfg block = s ++ ['\n', '\n'] := by
  have hlines : ∀ l ∈ writeLinesNoComment block cfg, '\n' ∉ l :=
    writeLinesNoComment_nl_free hnl
  have hcells : ∀ row ∈ (writeLinesNoComment block cfg).map (splitOnChar '\t'),
      ∀ cell ∈ row, '\n' ∉ cell := by
    intro row hrow cell hcell hmem
    obtain ⟨l, hlm, rfl⟩ := List.mem_map.mp hrow
    exact hlines l hlm (mem_of_mem_splitOnChar hcell hmem)
  set rows := (writeLinesNoComment block cfg).map (splitOnChar '\t') with hrows
  have hfuel : msize rows < msize rows + 1 := Nat.lt_succ_self _
  have hpsnl : ∀ p ∈ padCells rows, '\n' ∉ p :=
    padGo_not_mem (by decide) (msize rows + 1) rows hcells
  have hsplit : splitOnChar '\n' (valign (writeLinesNoComment block cfg)) =
      padCells rows ++ [[]] := by
    rw [valign]
    exact splitOnChar_flatten '\n' (padCells rows) hpsnl
  have hpslen : (padCells rows).length = block.length := by
    rw [padCells, padGo_length _ _ hfuel]
    simp [hrows, writeLinesNoComment]
  have hblen : 1 ≤ block.length := by
    cases block with
    | nil => exact absurd rfl hne
    | cons a b => simp
  set ls2 := overlayGo cfg block 0 [] (padCells rows ++ [[]]) with hls2
  have hlen2 : ls2.length = block.length + 1 := by
    rw [hls2, overlayGo_length]
    simp [hpslen]
  have hlast2 : ls2.getLast? = some [] := by
    rw [hls2, overlayGo_getLast]
    · exact List.getLast?_concat _
    · simp only [List.length_append, List.length_cons, List.length_nil, hpslen]
      omega
  -- the final alignment of the overlaid rows
  set rows2 := ls2.map (splitOnChar '\t') with hrows2
  have hlast2c : rows2.getLast? = some [[]] := by
    rw [hrows2, List.getLast?_map, hlast2]
    rfl
  have hqlast : (padCells rows2).getLast? = some [] := by
    rw [padCells]
    exact padGo_getLast _ _ [[]] (Nat.lt_succ_self _) hlast2c (by simp)
  have hqlen : 2 ≤ (padCells rows2).length := by
    rw [padCells, padGo_length _ _ (Nat.lt_succ_self _), hrows2, List.length_map,
      hlen2]
    omega
  have hfin := flatten_ends_double_newline '\n' (padCells rows2) hqlen hqlast
  obtain ⟨A, hA⟩ := hfin
  refine ⟨A, ?_⟩
  rw [writeBlock]
  rw [hsplit]
  rw [← hls2, valign, ← hrows2, hA]

/-- The empty block renders as a single blank line. -/
theorem writeBlock_nil (cfg : FormatConfig) : writeBlock cfg [] = ['\n'] := rfl

/-- The single-pass block segmenter never lets a Section line share a
block: the invariant proof over `segGo`. -/
theorem segGo_section_isolated :
    ∀ (ls : List Line) (done : List (List Line)) (cur : List Line),
      (∀ b ∈ done, (∃ l ∈ b, l.isSection = true) →
        ∃ l, b = [l] ∧ l.isSection = true) →
      (∀ l ∈ cur, l.isSection = false) →
      ∀ b ∈ segGo ls done cur,
        (∃ l ∈ b, l.isSection = true) → ∃ l, b = [l] ∧ l.isSection = true := by
  intro ls
  induction ls with
  | nil =>
    intro done cur hdone hcur b hb
    simp only [segGo] at hb
    rcases List.mem_append.mp hb with hb | hb
    · exact hdone b hb
    · rw [List.mem_singleton] at hb
      subst hb
      rintro ⟨l, hl, hsec⟩
      rw [hcur l hl] at hsec
      exact absurd hsec (by simp)
  | cons l rest ih =>
    intro done cur hdone hcur b hb
    have hclosed : ∀ b' ∈ (if cur.isEmpty then done else done ++ [cur]),
        (∃ l' ∈ b', l'.isSection = true) → ∃ l', b' = [l'] ∧ l'.isSection = true := by
      split
      · exact hdone
      · intro b' hb'
        rcases List.mem_append.mp hb' with hb' | hb'
        · exact hdone b' hb'
        · rw [List.mem_singleton] at hb'
          subst hb'
          rintro ⟨l', hl', hsec⟩
          rw [hcur l' hl'] at hsec
          exact absurd hsec (by simp)
    rw [segGo] at hb
    by_cases he : l.IsEmpty = true
    · rw [if_pos he] at hb
      exact ih _ [] hclosed (by simp) b hb
    · rw [if_neg he] at hb
      by_cases hs : (l.token.map Token.isSection).getD false = true
      · rw [if_pos hs] at hb
        refine ih _ [] ?_ (by simp) b hb
        intro b' hb'
        rcases List.mem_append.mp hb' with hb' | hb'
        · exact hclosed b' hb'
        · rw [List.mem_singleton] at hb'
          subst hb'
          intro _
          exact ⟨l, rfl, hs⟩
      · rw [if_neg hs] at hb
        refine ih _ _ hdone ?_ b hb
        intro l' hl'
        rcases List.mem_append.mp hl' with hl' | hl'
        · exact hcur l' hl'
        · rw [List.mem_singleton] at hl'
          subst hl'
          simpa [Line.isSection] using hs

theorem valign_single {x : Str} (hTab : '\t' ∉ x) : valign [x] = x ++ ['\n'] := by
  simp [valign, splitOnChar_of_not_mem hTab, padCells, msize, padGo]

theorem valign_pair_last_empty {x : Str} (hTab : '\t' ∉ x) :
    valign [x, []] = x ++ ['\n', '\n'] := by
  simp [valign, splitOnChar_of_not_mem hTab, padCells, msize, padGo, splitOnChar]

/-- A comment-free Section line alone in a block serializes verbatim,
followed by its own newline and the separating blank line. -/
theorem writeBlock_section_single (cfg : FormatConfig) (kw name : Str)
    (hTab : '\t' ∉ kw ++ ' ' :: name) (hNL : '\n' ∉ kw ++ ' ' :: name) :
    writeBlock cfg [{ token := some (.sectionTok kw name), comment := [] }] =
      (kw ++ ' ' :: name) ++ ['\n', '\n'] := by
  have h1 : writeLinesNoComment
      [{ token := some (.sectionTok kw name), comment := [] }] cfg =
      [kw ++ ' ' :: name] := by
    simp [writeLinesNoComment, Token.render, Token.isInstruction]
  have h4 : overlayGo cfg [{ token := some (.sectionTok kw name), comment := [] }]
      0 [] [kw ++ ' ' :: name, []] = [kw ++ ' ' :: name, []] := by
    simp [overlayGo]
  rw [writeBlock, h1, valign_single hTab, splitOnChar_append_cons _ _ _ hNL,
    show splitOnChar '\n' [] = [[]] from rfl, h4, valign_pair_last_empty hTab]

/-- C4: every recognized Section line is segmented into a block of its
own, and the serialization surrounds it with blank lines: every block's
text ends with a blank line (the empty block being itself a blank line),
and the Section block's text is the section line followed by a blank
line; hence whatever precedes or follows a section marker in the output
is separated from it by a blank line. -/
theorem section_isolation (cfg : FormatConfig) (ls : List Line) :
    (∀ b ∈ segment ls, (∃ l ∈ b, l.isSection = true) →
        ∃ l, b = [l] ∧ l.isSection = true) ∧
    writeBlock cfg [] = ['\n'] ∧
    (∀ block : List Line, block ≠ [] → blockNLFree block = true →
        ∃ s, writeBlock cfg block = s ++ ['\n', '\n']) ∧
    (∀ kw name : Str, '\t' ∉ kw ++ ' ' :: name → '\n' ∉ kw ++ ' ' :: name →
        writeBlock cfg [{ token := some (.sectionTok kw name), comment := [] }] =
          (kw ++ ' ' :: name) ++ ['\n', '\n']) := by
  refine ⟨?_, writeBlock_nil cfg, writeBlock_ends_blank cfg, ?_⟩
  · intro b hb
    exact segGo_section_isolated ls [] [] (by simp) (by simp) b hb
  · intro kw name hTab hNL
    exact writeBlock_section_single cfg kw name hTab hNL

/-- The section-line value used by the C4 witness. -/
def secLine : Line :=
  { token := some (.sectionTok "section".data ".text".data), comment := [] }

/-- The instruction-line value used by the C4 witness. -/
def movLine : Line :=
  { token := some (.instructionTok "mov".data ["rax".data, "1".data]), comment := [] }

/-- C4 witness: for lines `section .text` / blank / `mov rax, 1`, the
section line is isolated in its own block; the instruction block ends
with a blank line; the section block renders as `section .text` plus a
blank line. -/
theorem section_isolation_witness :
    (∃ l, ([secLine] : List Line) = [l] ∧ l.isSection = true) ∧
    (∃ s, writeBlock defaultConfig [movLine] = s ++ ['\n', '\n']) ∧
    writeBlock defaultConfig [secLine] =
      ("section".data ++ ' ' :: ".text".data) ++ ['\n', '\n'] := by
  have h := section_isolation defaultConfig
    [secLine, { token := none, comment := [] }, movLine]
  refine ⟨?_, ?_, ?_⟩
  · exact h.1 [secLine] (by decide) ⟨secLine, by decide, by decide⟩
  · exact h.2.2.1 [movLine] (by decide) (by decide)
  · exact h.2.2.2 "section".data ".text".data (by decide) (by decide)

end Nasm
